import Mathlib

/-!
# Verification of the jaxoplanet starry light-curve core

Shallow embedding of the spherical-harmonic light-curve code
(`light_curves.py`, `ylm.py`, `s2fft_rotation.py`) over the reals,
together with theorems settling the specification claims.

Machine floats are modelled by `ℝ`.  External collaborators that are not
part of the sources (the orbit provider, `left_project`, the basis
matrices `A1`/`U0`, the occultation solution vector, the `Pijk`
polynomial container and the scipy rotation-vector conversion) appear
either as explicit function parameters or as definitions whose doc
comment starts with `Modelled from the spec:`.
-/

noncomputable section

namespace Jaxoplanet

/-- Real model of `numpy.arctan2(x1, x2)` (used as `jnp.arctan2(xo, yo)` in
`map_light_curve`): the signed angle of the planar point `(x2, x1)`. -/
def arctan2 (a b : ℝ) : ℝ :=
  if 0 < b then Real.arctan (a / b)
  else if b < 0 then
    (if 0 ≤ a then Real.arctan (a / b) + Real.pi else Real.arctan (a / b) - Real.pi)
  else
    (if 0 < a then Real.pi / 2 else if a < 0 then -(Real.pi / 2) else 0)

/-- One iteration of the inner `m` loop of `rT` (light_curves.py 165-173 and
183-191): sets the four slots `rt[ell*ell+ell±m]` and (when `ell < lmax`)
`rt[(ell+1)²+ell±m+1]`, then updates `amp *= (nu+2)/(mu-2)`.
State is `(rt, amp)`. -/
def rTupdate (lmax ell : ℕ) (lfac1 lfac2 : ℝ) (st : List ℝ × ℝ) (m : ℕ) :
    List ℝ × ℝ :=
  let rt := st.1
  let amp := st.2
  let mu : ℝ := (ell : ℝ) - (m : ℝ)
  let nu : ℝ := (ell : ℝ) + (m : ℝ)
  let rt := rt.set (ell * ell + ell + m) (amp * lfac1)
  let rt := rt.set (ell * ell + ell - m) (amp * lfac1)
  let rt :=
    if ell < lmax then
      (rt.set ((ell + 1) * (ell + 1) + ell + m + 1) (amp * lfac2)).set
        ((ell + 1) * (ell + 1) + ell - m + 1) (amp * lfac2)
    else rt
  (rt, amp * ((nu + 2) / (mu - 2)))

/-- One iteration of the first outer `ell` loop of `rT`
(light_curves.py 163-176): runs the inner loop over `m = 0, 4, …, ≤ ell`
and updates `lfac1`, `lfac2`, `amp0`.  State is `(rt, amp0, lfac1, lfac2)`. -/
def rTstep1 (lmax : ℕ) (st : List ℝ × ℝ × ℝ × ℝ) (ell : ℕ) :
    List ℝ × ℝ × ℝ × ℝ :=
  let rt := st.1
  let amp0 := st.2.1
  let lfac1 := st.2.2.1
  let lfac2 := st.2.2.2
  let inner := (List.range' 0 (ell / 4 + 1) 4).foldl (rTupdate lmax ell lfac1 lfac2) (rt, amp0)
  (inner.1,
   amp0 * (0.0625 * ((ell : ℝ) + 2) * ((ell : ℝ) + 2)),
   lfac1 / (((ell : ℝ) / 2 + 2) * ((ell : ℝ) / 2 + 3)),
   lfac2 / (((ell : ℝ) / 2 + 2.5) * ((ell : ℝ) / 2 + 3.5)))

/-- One iteration of the second outer `ell` loop of `rT`
(light_curves.py 181-194): inner loop over `m = 2, 6, …, ≤ ell`. -/
def rTstep2 (lmax : ℕ) (st : List ℝ × ℝ × ℝ × ℝ) (ell : ℕ) :
    List ℝ × ℝ × ℝ × ℝ :=
  let rt := st.1
  let amp0 := st.2.1
  let lfac1 := st.2.2.1
  let lfac2 := st.2.2.2
  let inner := (List.range' 2 ((ell + 2) / 4) 4).foldl (rTupdate lmax ell lfac1 lfac2) (rt, amp0)
  (inner.1,
   amp0 * (0.0625 * (ell : ℝ) * ((ell : ℝ) + 4)),
   lfac1 / (((ell : ℝ) / 2 + 2) * ((ell : ℝ) / 2 + 3)),
   lfac2 / (((ell : ℝ) / 2 + 2.5) * ((ell : ℝ) / 2 + 3.5)))

/-- Embeds `rT(lmax)` (light_curves.py 158-195): the fixed rotation-phase
("phase curve") contraction vector of length `(lmax+1)²` in the polynomial
basis, built by two families of loops over `ell` with step 4
(`range(0, lmax+1, 4)` and `range(2, lmax+1, 4)`). -/
def rT (lmax : ℕ) : List ℝ :=
  let init := List.replicate ((lmax + 1) * (lmax + 1)) (0 : ℝ)
  let pass1 := (List.range' 0 (lmax / 4 + 1) 4).foldl (rTstep1 lmax)
    (init, Real.pi, 1, 2 / 3)
  let pass2 := (List.range' 2 ((lmax + 2) / 4) 4).foldl (rTstep2 lmax)
    (pass1.1, 0.5 * Real.pi, 0.5, 4 / 15)
  pass2.1

/-- Dot product of two coefficient lists (the `@` contraction of a dense
vector with a solution/phase vector). -/
def dotL (a b : List ℝ) : ℝ := (List.zipWith (fun x y => x * y) a b).sum

/-- Pointwise sum of two equal-length coefficient lists. -/
def addVec (a b : List ℝ) : List ℝ := List.zipWith (fun x y => x + y) a b

/-- Row-vector–matrix product `v @ M` where `M` is a list of rows of
length `ncols`. -/
def vecMat (v : List ℝ) (M : List (List ℝ)) (ncols : ℕ) : List ℝ :=
  (List.zipWith (fun vi row => row.map fun x => vi * x) v M).foldl addVec
    (List.replicate ncols 0)

/-- Modelled from the spec: the fixed limb-darkening change of basis
`U0(udeg)` (external, `basis.py` is not among the sources).  Degree 0 is the
scalar 1; degree 1 expands the basis functions `1` and `1 - μ` (glossary:
limb darkening is a radial profile in `μ`, here `μ = z` on the visible
disk) in the polynomial basis `(1, x, z, y)`. -/
def U0model : ℕ → List (List ℝ)
  | 0 => [[1]]
  | 1 => [[1, 0, 0, 0], [1, 0, -1, 0]]
  | _ => []

/-- Embeds `U = jnp.array([1, *map.u])`, `p_u = Pijk.from_dense(U @ U0(udeg))`
and the normalization denominator `p_u.tosparse() @ rT(map.udeg)`
of `map_light_curve` (light_curves.py 147-153), with `U0` spec-modelled. -/
def puDotrT (u : List ℝ) : ℝ :=
  dotL (vecMat (1 :: u) (U0model u.length) ((u.length + 1) ^ 2)) (rT u.length)

/-- Embeds the `theta_z` selection of `map_light_curve`
(light_curves.py 117 and 125): `0.0` when no occultor is given,
`arctan2(xo, yo)` whenever occultor parameters `(r, xo, yo, zo)` are given
— occulted or not. -/
def thetaZof : Option (ℝ × ℝ × ℝ × ℝ) → ℝ
  | none => 0
  | some (_, xo, yo, _) => arctan2 xo yo

/-- Embeds the rotation-only classification `b_rot` of `map_light_curve`
(light_curves.py 123): `b ≥ 1 + r  ∨  zo ≤ 0` with `b = sqrt(xo² + yo²)`,
boundaries included. -/
def bRotProp (r xo yo zo : ℝ) : Prop :=
  1 + r ≤ Real.sqrt (xo ^ 2 + yo ^ 2) ∨ zo ≤ 0

/-- Modelled from the spec: the azimuthal rotation by `θ_z` of a degree-1
real spherical-harmonic coefficient vector `(Y00, Y1,-1, Y10, Y11)` about
the polar (viewing) z-axis, applied on top of the body-frame rotation
inside the external `left_project` (rotation.py is not among the sources).
It fixes the `m = 0` components and mixes the `m = ±1` pair. -/
def zRotate1 (α : ℝ) (v : List ℝ) : List ℝ :=
  match v with
  | [v0, v1, v2, v3] =>
      [v0, Real.cos α * v1 - Real.sin α * v3, v2,
       Real.sin α * v1 + Real.cos α * v3]
  | w => w

/-- Modelled from the spec: the fixed spherical-harmonic → polynomial basis
change `A1` at degree 1 (external, `basis.py` is not among the sources),
sending `(Y00, Y1,-1, Y10, Y11)` to the polynomial basis `(1, x, z, y)`
with unit normalization. -/
def A1model1 (v : List ℝ) : List ℝ :=
  match v with
  | [v0, v1, v2, v3] => [v0, v3, v2, v1]
  | w => w

/-- Embeds `map_light_curve` (light_curves.py 86-155) for a surface with a
degree-1 map and no limb darkening (`deg = ydeg = 1`, `u = []`).
`bodyFrame` abstracts the inclination/obliquity/phase part of the external
`left_project`; `sTA2` abstracts `solution_vector(deg)(b, r) @ A2(deg)`
of the occulted branch.  The occultor-given branch classifies with
`b_rot = (b ≥ 1+r) ∨ (zo ≤ 0)` and selects `x = rT(deg)` in the
rotation-only case, and `theta_z = arctan2(xo, yo)` is passed to the
rotation unconditionally. -/
def surfaceFluxD1 (bodyFrame : ℝ → ℝ → ℝ → List ℝ → List ℝ)
    (sTA2 : ℝ → ℝ → List ℝ) (y : List ℝ) (inc obl θ : ℝ)
    (occ : Option (ℝ × ℝ × ℝ × ℝ)) : ℝ :=
  let rT_deg := rT 1
  let θz := thetaZof occ
  let x : List ℝ :=
    match occ with
    | none => rT_deg
    | some (r, xo, yo, zo) =>
        if 1 + r ≤ Real.sqrt (xo ^ 2 + yo ^ 2) ∨ zo ≤ 0 then rT_deg
        else sTA2 (Real.sqrt (xo ^ 2 + yo ^ 2)) r
  let rotated_y := zRotate1 θz (bodyFrame inc obl θ y)
  let p_y := A1model1 rotated_y
  let p_u := vecMat [1] (U0model 0) 1
  let p_yu := p_y.map fun t => p_u.headD 0 * t
  dotL p_yu x * (Real.pi / dotL p_u (rT 0))

/-- Embeds `euler(x, y, z, theta)` (s2fft_rotation.py 177-181): normalize
the axis by its Euclidean norm, scale by the angle, and hand the rotation
vector to the external scipy conversion to proper ZYZ Euler angles
(abstracted by `conv`).  Division by a zero norm follows the real-field
convention `t / 0 = 0` (the floating-point source silently produces NaNs
there); the relevant structural fact is that the source contains no
zero-norm check and no error path. -/
def eulerZYZ (conv : ℝ × ℝ × ℝ → ℝ × ℝ × ℝ) (x y z θ : ℝ) : ℝ × ℝ × ℝ :=
  let nrm := Real.sqrt (x ^ 2 + y ^ 2 + z ^ 2)
  conv (x / nrm * θ, y / nrm * θ, z / nrm * θ)

/-- The runtime failure of `light_curve_impl` when the central body has no
surface map: line 78 reads the local `n`, which is assigned only inside
the mapped-central branch (line 65). -/
inductive LCError where
  | unboundLocalN
deriving DecidableEq

/-- Embeds one time sample of `light_curve_impl` (light_curves.py 42-80).
`mlc occ` abstracts `map_light_curve(central_surface_map, r, x, y, z, θ)`
at the sample's rotational phase (`none` is the bare phase curve, line 50;
`some` the one-occultor flux with radius-scaled relative positions, lines
53-61); `amp` is `central_surface_map.amplitude`; `bodyLC` the list of
`compute_body_light_curve` outputs; `occArgs` the per-body radius-scaled
occultor parameters, whose length is `n = len(xos)`.  When the central
surface map is absent the source reaches `jnp.zeros((n, 1))` with `n`
unassigned and raises `UnboundLocalError`. -/
def lightCurveImplRow (hasCentralMap : Bool) (amp : ℝ)
    (mlc : Option (ℝ × ℝ × ℝ × ℝ) → ℝ) (bodyLC : List ℝ)
    (occArgs : List (ℝ × ℝ × ℝ × ℝ)) : Except LCError (List ℝ) :=
  match hasCentralMap with
  | false => Except.error LCError.unboundLocalN
  | true =>
      let centralPhase := mlc none
      let perOcc := occArgs.map fun a => mlc (some a) * amp
      let n := occArgs.length
      let centralCol :=
        if 1 < n then [perOcc.sum - centralPhase * ((n : ℝ) - 1)] else perOcc
      Except.ok (centralCol ++ bodyLC)

/-- The amplitude-scaled flux of the central body with a single orbiting
body as sole occultor (the entries of `central_bodies_lc(...) * amplitude`,
light_curves.py 53-63). -/
def centralOneOccFlux (amp : ℝ) (mlc : Option (ℝ × ℝ × ℝ × ℝ) → ℝ)
    (a : ℝ × ℝ × ℝ × ℝ) : ℝ := mlc (some a) * amp

/-- The central body's bare (unocculted) phase flux `central_phase_curve`
(light_curves.py 50-52); the source does not scale it by the amplitude. -/
def centralPhaseFlux (mlc : Option (ℝ × ℝ × ℝ × ℝ) → ℝ) : ℝ := mlc none

/-- Embeds `rotated_y = jnp.zeros(map.ydeg)` (light_curves.py 140), the
rotated-map coefficient vector used when the surface has no map
(`map.y is None`): a zero vector of length `ydeg`, not `(ydeg+1)²`. -/
def rotatedYNoMap (ydeg : ℕ) : List ℝ := List.replicate ydeg 0

/-- Dense matrix–vector product with the shape check of the jax `@`
contraction: `none` when the number of columns does not match the vector
length (the source raises a shape error there). -/
def bcooMatVec (M : List (List ℝ)) (v : List ℝ) : Option (List ℝ) :=
  if M.all fun row => row.length == v.length then
    some (M.map fun row => dotL row v)
  else none

/-- Modelled from the spec: the fixed basis-change matrix `A1(0)` (external,
`basis.py` is not among the sources) — a 1×1 scalar matrix; its entry value
is irrelevant to the shape mismatch below. -/
def A1deg0model : List (List ℝ) := [[1]]

/-- Embeds the `Ylm` container (ylm.py 17-33): an insertion-ordered mapping
from `(degree, order)` keys to real coefficients, together with the fields
computed by `__init__`: `ell_max = max(ell for ell, _ in data.keys())` and
`diagonal = all(m == 0 ...)`. -/
structure Ylm where
  data : List ((ℕ × ℤ) × ℝ)
  ell_max : ℕ
  diagonal : Bool

/-- Embeds `max(ell for ell, _ in data.keys())` (ylm.py 32): Python's `max`
of the degree keys, which raises `ValueError` on an empty mapping
(modelled by `none`). -/
def maxEll (data : List ((ℕ × ℤ) × ℝ)) : Option ℕ :=
  match data.map fun e => e.1.1 with
  | [] => none
  | x :: xs => some (xs.foldl max x)

/-- Embeds the `Ylm` constructor (ylm.py 26-33): fails (`ValueError` from
`max` over zero keys) on an empty coefficient mapping. -/
def mkYlm (data : List ((ℕ × ℤ) × ℝ)) : Option Ylm :=
  match maxEll data with
  | none => none
  | some m => some ⟨data, m, data.all fun e => e.1.2 == 0⟩

/-- Embeds the dict lookup `self.data[(ell, m)]` with absent keys reading
as contribution 0 (the product loops in `_mul` skip absent keys, which is
the same as multiplying by a zero coefficient). -/
def Ylm.coeff (y : Ylm) (l : ℕ) (m : ℤ) : ℝ :=
  match y.data.find? fun e => decide (e.1 = (l, m)) with
  | some e => e.2
  | none => 0

/-- Embeds `Ylm.index(ell, m)` (ylm.py 45-52): raises (`none`) when
`|m| > ell`, otherwise the canonical linear index `ell(ell+1) + m`. -/
def checkedIndex (l : ℕ) (m : ℤ) : Option ℤ :=
  if m.natAbs ≤ l then some ((l : ℤ) * ((l : ℤ) + 1) + m) else none

/-- Embeds the index computation of `Ylm.tosparse` (ylm.py 54-57): the
checked canonical index of every stored key paired with its coefficient;
fails if any key is out of range. -/
def tosparsePairs : List ((ℕ × ℤ) × ℝ) → Option (List (ℤ × ℝ))
  | [] => some []
  | e :: t =>
    match checkedIndex e.1.1 e.1.2, tosparsePairs t with
    | some i, some r => some ((i, e.2) :: r)
    | _, _ => none

/-- Embeds `Ylm.shape` (ylm.py 35-39): `ell_max² + 2 ell_max + 1`. -/
def ylmShape (y : Ylm) : ℕ := y.ell_max ^ 2 + 2 * y.ell_max + 1

/-- The scatter-add semantics of materializing a sparse `BCOO` vector of
length `n` (`Ylm.todense`, ylm.py 59-60): slot `j` sums every stored value
whose index is `j`. -/
def scatterAdd (pairs : List (ℤ × ℝ)) (n : ℕ) : List ℝ :=
  (List.range n).map fun (j : ℕ) =>
    ((pairs.filter fun p => decide (p.1 = (j : ℤ))).map fun p => p.2).sum

/-- Embeds `Ylm.todense` (ylm.py 59-60): checked sparse indices scattered
into a dense vector of length `shape`. -/
def todense (y : Ylm) : Option (List ℝ) :=
  match tosparsePairs y.data with
  | some ps => some (scatterAdd ps (ylmShape y))
  | none => none

/-- The key/value of entry `i` built by `Ylm.from_dense` (ylm.py 62-69):
`ell = floor(sqrt i)`, `m = i - ell*(ell+1)`. -/
def fromDenseEntry (i : ℕ) (c : ℝ) : (ℕ × ℤ) × ℝ :=
  ((Nat.sqrt i, (i : ℤ) - (Nat.sqrt i : ℤ) * ((Nat.sqrt i : ℤ) + 1)), c)

/-- The coefficient mapping built by `Ylm.from_dense`'s enumeration loop
(ylm.py 64-68). -/
def fromDenseData (v : List ℝ) : List ((ℕ × ℤ) × ℝ) :=
  (v.enumFrom 0).map fun e => fromDenseEntry e.1 e.2

/-- Embeds `Ylm.from_dense` (ylm.py 62-69). -/
def fromDense (v : List ℝ) : Option Ylm := mkYlm (fromDenseData v)

/-- The summand accumulated into `fg[(ell3, m3)]` by `_mul` (ylm.py 97-127)
for the loop indices `(ell1, m1, ell2, m2)`: nonzero only when the target
order matches `m3 = m1 + m2` and `ell3` lies in
`[max(|m3|, |ell1-ell2|), min(ell1+ell2, ellmax_f+ellmax_g)]`, with the
prefactor `(-1)^(ell1+ell2+ell3+m3) · sqrt((2ell1+1)/(4π)) · sqrt(2ell2+1)
· sqrt(2ell3+1) · coupling(ell1,ell2,m1,m2)[ell3]`. -/
def mulTerm (c : ℕ → ℕ → ℤ → ℤ → ℕ → ℝ) (f g : Ylm) (l3 : ℕ) (m3 : ℤ)
    (l1 : ℕ) (m1 : ℤ) (l2 : ℕ) (m2 : ℤ) : ℝ :=
  if m3 = m1 + m2 ∧ (m1 + m2).natAbs ≤ l3 ∧ ((l1 : ℤ) - (l2 : ℤ)).natAbs ≤ l3 ∧
      l3 ≤ l1 + l2 ∧ l3 ≤ f.ell_max + g.ell_max then
    ((-1 : ℝ) ^ ((l1 : ℤ) + (l2 : ℤ) + (l3 : ℤ) + m3) *
        Real.sqrt (2 * (l3 : ℝ) + 1) * c l1 l2 m1 m2 l3) *
      (Real.sqrt ((2 * (l1 : ℝ) + 1) / (4 * Real.pi)) * f.coeff l1 m1) *
      (Real.sqrt (2 * (l2 : ℝ) + 1) * g.coeff l2 m2)
  else 0

/-- Embeds the value accumulated at key `(l3, m3)` of the defaultdict `fg`
by the four nested loops of `_mul` (ylm.py 95-128); `c` is the external
Wigner-3j coupling provider `Wigner3jCalculator.calculate` (whose module
`wigner3j.py` is not among the sources). -/
def mulCoeff (c : ℕ → ℕ → ℤ → ℤ → ℕ → ℝ) (f g : Ylm) (l3 : ℕ) (m3 : ℤ) : ℝ :=
  ∑ l1 ∈ Finset.range (f.ell_max + 1), ∑ m1 ∈ Finset.Icc (-(l1 : ℤ)) (l1 : ℤ),
    ∑ l2 ∈ Finset.range (g.ell_max + 1), ∑ m2 ∈ Finset.Icc (-(l2 : ℤ)) (l2 : ℤ),
      mulTerm c f g l3 m3 l1 m1 l2 m2

/-- The Wigner 3-j column-swap symmetry for the coupling provider:
swapping `(ℓ1, m1)` with `(ℓ2, m2)` multiplies the symbol by
`(-1)^(ℓ1+ℓ2+ℓ3)`. -/
def w3jColumnSwapSymm (c : ℕ → ℕ → ℤ → ℤ → ℕ → ℝ) : Prop :=
  ∀ l1 l2 : ℕ, ∀ m1 m2 : ℤ, ∀ l3 : ℕ,
    c l2 l1 m2 m1 l3 = (-1 : ℝ) ^ (l1 + l2 + l3) * c l1 l2 m1 m2 l3

/-- Vanishing of the coupling on odd total degree `ℓ1 + ℓ2 + ℓ3` (the
property contributed, in the full scalar product formula, by the spin-0
symbol `(ℓ1 ℓ2 ℓ3; 0 0 0)` that `_mul` omits). -/
def w3jParityVanishing (c : ℕ → ℕ → ℤ → ℤ → ℕ → ℝ) : Prop :=
  ∀ l1 l2 : ℕ, ∀ m1 m2 : ℤ, ∀ l3 : ℕ,
    Odd (l1 + l2 + l3) → c l1 l2 m1 m2 l3 = 0

/-- A concrete coupling table satisfying the Wigner 3-j column-swap
symmetry, supported on `(ℓ1, ℓ2, ℓ3) = (1, 1, 1)` with orders
`(m1, m2) = (1, -1)` and `(-1, 1)` (antisymmetric, as the odd total degree
`ℓ1+ℓ2+ℓ3 = 3` forces). -/
def w3jTable (l1 l2 : ℕ) (m1 m2 : ℤ) (l3 : ℕ) : ℝ :=
  if l1 = 1 ∧ l2 = 1 ∧ l3 = 1 ∧ m1 = 1 ∧ m2 = -1 then 1
  else if l1 = 1 ∧ l2 = 1 ∧ l3 = 1 ∧ m1 = -1 ∧ m2 = 1 then -1
  else 0

/-- A concrete coupling table supported on even total degree only
(`(1, 1, ℓ3 = 2)`), satisfying both the column-swap symmetry and the
odd-degree vanishing. -/
def w3jEvenTable (l1 l2 : ℕ) (_ _ : ℤ) (l3 : ℕ) : ℝ :=
  if l1 = 1 ∧ l2 = 1 ∧ l3 = 2 then 1 else 0

/-- The single-key expansion `{(1, 1): 1}` as built by the `Ylm`
constructor. -/
def ylmP : Ylm := ⟨[((1, 1), 1)], 1, false⟩

/-- The single-key expansion `{(1, -1): 1}` as built by the `Ylm`
constructor. -/
def ylmM : Ylm := ⟨[((1, -1), 1)], 1, false⟩

/-- A Wigner-d plane, modelled as a total function on row/column indices
(the source stores a `(2L-1) × (2L-1)` array). -/
def Mat : Type := ℕ → ℕ → ℝ

/-- The all-zero plane (`jnp.zeros((2L-1, 2L-1))`). -/
def zeroMat : Mat := fun _ _ => 0

/-- Single-entry update `dl.at[r0, c0].set v`. -/
def mset (M : Mat) (r0 c0 : ℕ) (v : ℝ) : Mat :=
  fun r c => if r = r0 ∧ c = c0 then v else M r c

/-- First pass of the Risbo step of `compute_full` (s2fft_rotation.py
59-84): the intermediate `dd` array built from the degree-`(el-1)` plane
`dl` by four rank-structured additive updates over the window `j = 2el-1`,
with `coshb = -cos(β/2)`, `sinhb = sin(β/2)` and
`dlj k i = dl[k-(el-1)+L-1, i-(el-1)+L-1]`. -/
def risboFirst (β : ℝ) (L el : ℕ) (dl : Mat) : Mat :=
  let j := 2 * el - 1
  let coshb := -Real.cos (β / 2)
  let sinhb := Real.sin (β / 2)
  let dlj : ℕ → ℕ → ℝ := fun k i => dl (k + L - el) (i + L - el)
  fun k i =>
    (if k < j ∧ i < j then
      Real.sqrt ((j - i : ℕ) : ℝ) * Real.sqrt ((j - k : ℕ) : ℝ) * dlj k i * coshb
    else 0)
    + (if k < j ∧ 1 ≤ i ∧ i ≤ j then
      -(Real.sqrt ((i : ℕ) : ℝ)) * Real.sqrt ((j - k : ℕ) : ℝ) * dlj k (i - 1) * sinhb
    else 0)
    + (if 1 ≤ k ∧ k ≤ j ∧ i < j then
      Real.sqrt ((j - i : ℕ) : ℝ) * Real.sqrt ((k : ℕ) : ℝ) * dlj (k - 1) i * sinhb
    else 0)
    + (if 1 ≤ k ∧ k ≤ j ∧ 1 ≤ i ∧ i ≤ j then
      Real.sqrt ((i : ℕ) : ℝ) * Real.sqrt ((k : ℕ) : ℝ) * dlj (k - 1) (i - 1) * coshb
    else 0)

/-- Second pass of the Risbo step of `compute_full` (s2fft_rotation.py
86-119): zero the central `(2el+1)²` window of `dl` and add the four
rank-structured updates of the `dd` array over the window `j = 2el`
(normalization by `(2el)(2el-1)` is applied by the caller, line 120). -/
def risboSecond (β : ℝ) (L el : ℕ) (dl dd : Mat) : Mat :=
  let j := 2 * el
  let coshb := -Real.cos (β / 2)
  let sinhb := Real.sin (β / 2)
  let lo := L - el - 1
  fun r c =>
    (if lo ≤ r ∧ r ≤ L + el - 1 ∧ lo ≤ c ∧ c ≤ L + el - 1 then 0 else dl r c)
    + (if lo ≤ r ∧ r ≤ L + el - 2 ∧ lo ≤ c ∧ c ≤ L + el - 2 then
      Real.sqrt ((j - (c - lo) : ℕ) : ℝ) * Real.sqrt ((j - (r - lo) : ℕ) : ℝ) *
        dd (r - lo) (c - lo) * coshb
    else 0)
    + (if lo ≤ r ∧ r ≤ L + el - 2 ∧ L - el ≤ c ∧ c ≤ L + el - 1 then
      -(Real.sqrt ((c - (L - el) + 1 : ℕ) : ℝ)) * Real.sqrt ((j - (r - lo) : ℕ) : ℝ) *
        dd (r - lo) (c - (L - el)) * sinhb
    else 0)
    + (if L - el ≤ r ∧ r ≤ L + el - 1 ∧ lo ≤ c ∧ c ≤ L + el - 2 then
      Real.sqrt ((j - (c - lo) : ℕ) : ℝ) * Real.sqrt ((r - (L - el) + 1 : ℕ) : ℝ) *
        dd (r - (L - el)) (c - lo) * sinhb
    else 0)
    + (if L - el ≤ r ∧ r ≤ L + el - 1 ∧ L - el ≤ c ∧ c ≤ L + el - 1 then
      Real.sqrt ((c - (L - el) + 1 : ℕ) : ℝ) * Real.sqrt ((r - (L - el) + 1 : ℕ) : ℝ) *
        dd (r - (L - el)) (c - (L - el)) * coshb
    else 0)

/-- Embeds `compute_full(dl, beta, L, el)` (s2fft_rotation.py 8-120): the
degree-`el` Wigner-d plane at argument `β` from the degree-`(el-1)` plane.
Degree 0 sets the single central entry to 1; degree 1 is the closed-form
3×3 half-angle block; degree `el ≥ 2` is the two-pass Risbo convolution of
the previous plane followed by normalization by `1/((2el)(2el-1))`. -/
def computeFull (dl : Mat) (β : ℝ) (L el : ℕ) : Mat :=
  if el = 0 then mset dl (L - 1) (L - 1) 1
  else if el = 1 then
    let cosb := Real.cos β
    let sinb := Real.sin β
    let coshb := Real.cos (β / 2)
    let sinhb := Real.sin (β / 2)
    let sqrt2 := Real.sqrt 2
    mset (mset (mset (mset (mset (mset (mset (mset (mset dl
      (L - 2) (L - 2) (coshb ^ 2))
      (L - 2) (L - 1) (sinb / sqrt2))
      (L - 2) L (sinhb ^ 2))
      (L - 1) (L - 2) (-sinb / sqrt2))
      (L - 1) (L - 1) cosb)
      (L - 1) L (sinb / sqrt2))
      L (L - 2) (sinhb ^ 2))
      L (L - 1) (-sinb / sqrt2))
      L L (coshb ^ 2)
  else
    fun r c =>
      risboSecond β L el dl (risboFirst β L el dl) r c /
        (((2 * el) * (2 * el - 1) : ℕ) : ℝ)

/-- The value of the mutable `dl_iter` after the iteration `el` of the loop
in `generate_rotate_dls` (s2fft_rotation.py 138-140): the degree-`el` plane,
obtained from the degree-`(el-1)` plane — degree `el` is never computed
before degree `el - 1`. -/
def dlIterAux (β : ℝ) (L : ℕ) : ℕ → Mat
  | 0 => computeFull zeroMat β L 0
  | n + 1 => computeFull (dlIterAux β L n) β L (n + 1)

/-- Embeds `generate_rotate_dls(L, beta)` (s2fft_rotation.py 123-141): the
stack of `L` Wigner-d planes produced by `for el in range(L)`, plane `el`
stored at index `el`. -/
def generateRotateDls (L : ℕ) (β : ℝ) : List Mat :=
  (List.range L).map (dlIterAux β L)

/-- The plane stack used by `compute_rotation_matrices(deg, x, y, z, theta)`
(s2fft_rotation.py 184): `generate_rotate_dls(deg + 1, beta)`, where `β` is
the middle Euler angle obtained from the axis and angle. -/
def rotationDls (deg : ℕ) (β : ℝ) : List Mat :=
  generateRotateDls (deg + 1) β

/-! ## Evaluation of `rT` at the degrees used by the claims -/

theorem rT_zero : rT 0 = [Real.pi] := by
  have h : rT 0 = [Real.pi * 1] := rfl
  rw [h, mul_one]

theorem rT_one : rT 1 = [Real.pi, 0, Real.pi * (2 / 3), 0] := by
  have h : rT 1 = [Real.pi * 1, 0, Real.pi * (2 / 3), 0] := rfl
  rw [h, mul_one]

/-- The normalization denominator at `udeg = 1` in closed form. -/
theorem puDotrT_linear (u1 : ℝ) : puDotrT [u1] = Real.pi + u1 * Real.pi / 3 := by
  have hrep : List.replicate ((1 + 1) ^ 2) (0 : ℝ) = [0, 0, 0, 0] := rfl
  simp only [puDotrT, vecMat, U0model, addVec, dotL, List.length_cons,
    List.length_nil, hrep, List.zipWith_cons_cons, List.zipWith_nil_right,
    List.zipWith_nil_left, List.map_cons, List.map_nil, List.foldl_cons,
    List.foldl_nil, List.sum_cons, List.sum_nil]
  rw [rT_one]
  simp only [List.zipWith_cons_cons, List.zipWith_nil_right,
    List.zipWith_nil_left, List.sum_cons, List.sum_nil]
  ring

/-! ## C5 -/

/-- C5 counterexample: the claim asserts `p_u · rT(udeg)` is strictly
positive for every real limb-darkening coefficient sequence; at
`u = [-3]` (with the spec-modelled `U0` at degree 1) the denominator is
exactly `0`, so `norm = π / (p_u · rT(udeg))` divides by zero. -/
theorem pu_rT_denominator_zero_cex : puDotrT [(-3 : ℝ)] = 0 := by
  rw [puDotrT_linear]; ring

/-- C5 (amended): the normalization denominator `p_u · rT(udeg)` is
strictly positive not for every real coefficient sequence but on a
restricted range; for the spec-modelled linear limb-darkening basis it
equals `π (1 + u1/3)`, strictly positive iff `u1 > -3`. -/
theorem pu_rT_denominator_pos (u1 : ℝ) (h : -3 < u1) : 0 < puDotrT [u1] := by
  rw [puDotrT_linear]
  nlinarith [mul_pos Real.pi_pos (show (0 : ℝ) < u1 + 3 by linarith)]

theorem pu_rT_denominator_pos_witness : 0 < puDotrT [(0 : ℝ)] :=
  pu_rT_denominator_pos 0 (by norm_num)

/-! ## C4 -/

/-- C4 counterexample: the claim asserts the rotation-matrix computation
fails with a `DegenerateAxis` condition for a zero-norm axis and returns
no numeric result; the embedded `euler` has no error path and at the zero
axis returns the converter's value at the zero rotation vector — here,
with the identity converter, the numeric triple `(0, 0, 0)`. -/
theorem euler_zero_axis_returns_value_cex :
    eulerZYZ id 0 0 0 1 = ((0 : ℝ), (0 : ℝ), (0 : ℝ)) := by
  simp [eulerZYZ]

/-- C4 (amended): `euler` performs no zero-norm check: for a zero-length
axis it does not fail — it silently normalizes by the zero norm (NaNs in
the floating-point source, the `t / 0 = 0` convention here) and returns
the ZYZ conversion of the zero rotation vector; no `DegenerateAxis`
condition exists in the code. -/
theorem euler_zero_axis_no_failure (conv : ℝ × ℝ × ℝ → ℝ × ℝ × ℝ) (θ : ℝ) :
    eulerZYZ conv 0 0 0 θ = conv (0, 0, 0) := by
  simp [eulerZYZ]

/-! ## C1 -/

/-- C1: the claim asserts that with no central surface map, column 0 of
the system flux is all zero while the body columns are computed.  The
source instead raises `UnboundLocalError`: line 78 evaluates
`jnp.zeros((n, 1))` but `n` is assigned only in the mapped-central branch
(line 65).  Evaluated here on a scenario-1-style sample (one orbiting
body, no central map). -/
theorem lightCurveImpl_no_central_map_errors :
    lightCurveImplRow false 1 (fun _ => 0) [0.5] [(0.45, 0, 0, 1)] =
      Except.error LCError.unboundLocalN := rfl

/-! ## C3 -/

/-- C3: for `n ≥ 2` orbiting bodies and a mapped central body, the central
column equals the sum of the per-body single-occultor central fluxes minus
`(n-1)` times the central body's bare phase flux; for `n = 1` no
subtraction is performed and the column is the single-occultor flux alone.
(The one-occultor terms carry the amplitude factor of line 62; the
subtracted phase curve of line 50 does not.) -/
theorem central_column_occultation_correction (amp : ℝ)
    (mlc : Option (ℝ × ℝ × ℝ × ℝ) → ℝ) (bodyLC : List ℝ) :
    (∀ occArgs : List (ℝ × ℝ × ℝ × ℝ), 2 ≤ occArgs.length →
      lightCurveImplRow true amp mlc bodyLC occArgs =
        Except.ok (((occArgs.map (centralOneOccFlux amp mlc)).sum -
          centralPhaseFlux mlc * ((occArgs.length : ℝ) - 1)) :: bodyLC)) ∧
    (∀ a : ℝ × ℝ × ℝ × ℝ, lightCurveImplRow true amp mlc bodyLC [a] =
      Except.ok (centralOneOccFlux amp mlc a :: bodyLC)) := by
  constructor
  · intro occArgs h
    have hn : 1 < occArgs.length := by omega
    simp only [lightCurveImplRow, if_pos hn, List.singleton_append]
    rfl
  · intro a
    simp only [lightCurveImplRow, List.length_cons, List.length_nil]
    norm_num
    rfl

theorem central_column_occultation_correction_witness :
    lightCurveImplRow true 2 (fun _ => 3) []
        [((1 : ℝ), (0 : ℝ), (0 : ℝ), (1 : ℝ)), (2, 0, 0, 1)] =
      Except.ok ((([((1 : ℝ), (0 : ℝ), (0 : ℝ), (1 : ℝ)), (2, 0, 0, 1)].map
          (centralOneOccFlux 2 fun _ => 3)).sum -
        centralPhaseFlux (fun _ => 3) *
          ((([((1 : ℝ), (0 : ℝ), (0 : ℝ), (1 : ℝ)),
              (2, 0, 0, 1)] : List (ℝ × ℝ × ℝ × ℝ)).length : ℝ) - 1)) :: []) :=
  (central_column_occultation_correction 2 (fun _ => 3) []).1 _ (by norm_num)

/-! ## C7 -/

/-- C7: the claim asserts that with an absent map the rotated coefficient
vector is a well-formed dense vector of length `(ydeg+1)²`, zero except
the isotropic term, and that the `A1` product succeeds.  The source builds
`jnp.zeros(map.ydeg)` — length `ydeg`, never `(ydeg+1)²`, with no isotropic
entry — and at `ydeg = 0` the subsequent `A1(0) @ rotated_y` contraction is
a shape mismatch. -/
theorem noMap_rotated_vector_ill_formed :
    (∀ ydeg : ℕ, (rotatedYNoMap ydeg).length = ydeg ∧ ydeg ≠ (ydeg + 1) ^ 2) ∧
    bcooMatVec A1deg0model (rotatedYNoMap 0) = none := by
  refine ⟨fun ydeg => ⟨by simp [rotatedYNoMap], fun h => ?_⟩, rfl⟩
  nlinarith [sq_nonneg ydeg, h]

/-! ## C6 -/

/-- C6 counterexample: the claim asserts Wigner-d planes for every degree
`0 .. maxDegree+1` inclusive (`maxDegree + 2` planes).  At
`maxDegree = 0` the stack `generate_rotate_dls(deg + 1, β)` holds exactly
one plane (degree 0 only): no degree-1 plane exists. -/
theorem rotationDls_missing_top_degree_cex :
    (rotationDls 0 0).length = 1 ∧ ¬ (0 + 2 ≤ (rotationDls 0 0).length) := by
  constructor <;> simp [rotationDls, generateRotateDls]

/-- C6 (amended): `compute_rotation_matrices` generates the Wigner-d plane
at `β` for every degree `0 .. maxDegree` inclusive (`maxDegree + 1`
planes, band-limit argument `L = maxDegree + 1`), plane `el` stored at
index `el`; each degree-`ℓ` plane (`ℓ ≥ 2`) is the two-pass Risbo
convolution of the degree-`(ℓ-1)` plane normalized by `1/((2ℓ)(2ℓ-1))`,
and degree `ℓ` is obtained from degree `ℓ-1`, never before it. -/
theorem rotationDls_structure (deg : ℕ) (β : ℝ) :
    (rotationDls deg β).length = deg + 1 ∧
    (∀ el, el < deg + 1 →
      (rotationDls deg β).getD el zeroMat = dlIterAux β (deg + 1) el) ∧
    (∀ el, 2 ≤ el →
      dlIterAux β (deg + 1) el = fun r c =>
        risboSecond β (deg + 1) el (dlIterAux β (deg + 1) (el - 1))
          (risboFirst β (deg + 1) el (dlIterAux β (deg + 1) (el - 1))) r c /
          (((2 * el) * (2 * el - 1) : ℕ) : ℝ)) := by
  refine ⟨by simp [rotationDls, generateRotateDls], fun el h => ?_, fun el h => ?_⟩
  · simp [rotationDls, generateRotateDls, List.getD_eq_getElem?_getD,
      List.getElem?_map, List.getElem?_range, h]
  · match el, h with
    | n + 2, _ =>
      show computeFull (dlIterAux β (deg + 1) (n + 1)) β (deg + 1) (n + 2) = _
      rw [computeFull, if_neg (by omega), if_neg (by omega)]
      simp

/-! ## C2 -/

/-- C2 counterexample: the claim asserts the azimuthal angle
`θ_z = atan2(xo, yo)` is applied only when the body is occulted.  At
occultor parameters `(r, xo, yo, zo) = (0, 1, 0, 1)` the body classifies
as unocculted (`b = 1 ≥ 1 + r` exactly on the boundary), yet
`map_light_curve` passes `θ_z = arctan2(1, 0) = π/2 ≠ 0` to the rotation. -/
theorem thetaZ_applied_when_unocculted_cex :
    bRotProp 0 1 0 1 ∧ thetaZof (some (0, 1, 0, 1)) = Real.pi / 2 ∧
      Real.pi / 2 ≠ 0 := by
  refine ⟨Or.inl ?_, ?_, ?_⟩
  · have h : ((1 : ℝ) ^ 2 + 0 ^ 2) = 1 := by norm_num
    rw [h, Real.sqrt_one]; norm_num
  · simp [thetaZof, arctan2]
  · exact ne_of_gt (by positivity)

/-- C2 (amended): for every surface state, phase, and occultor parameters
`(r, xo, yo, zo)` with `r ≥ 0` that classify as unocculted
(`b ≥ 1 + r` or `zo ≤ 0`, boundaries included), the single-surface flux
equals the flux with no occultor at the same phase `θ` — even though
`θ_z = atan2(xo, yo)` is applied whenever occultor parameters are given
(not only when occulted): the phase contraction `rT · A1` is supported on
the `m = 0` components, which the azimuthal rotation fixes.  Stated for
the spec-modelled degree-1, no-limb-darkening pipeline with the body-frame
rotation abstract. -/
theorem surfaceFlux_unocculted_eq_phase_flux
    (bodyFrame : ℝ → ℝ → ℝ → List ℝ → List ℝ) (sTA2 : ℝ → ℝ → List ℝ)
    (y : List ℝ) (inc obl θ r xo yo zo : ℝ) (_hr : 0 ≤ r)
    (hun : 1 + r ≤ Real.sqrt (xo ^ 2 + yo ^ 2) ∨ zo ≤ 0) :
    surfaceFluxD1 bodyFrame sTA2 y inc obl θ (some (r, xo, yo, zo)) =
      surfaceFluxD1 bodyFrame sTA2 y inc obl θ none := by
  simp only [surfaceFluxD1, thetaZof]
  rw [if_pos hun]
  rcases hw : bodyFrame inc obl θ y with _ | ⟨a, _ | ⟨b, _ | ⟨cc, _ | ⟨d, _ | ⟨e, tl⟩⟩⟩⟩⟩ <;>
    simp [zRotate1, A1model1, dotL, rT_one, rT_zero]

theorem surfaceFlux_unocculted_eq_phase_flux_witness :
    surfaceFluxD1 (fun _ _ _ v => v) (fun _ _ => [0, 0, 0, 0]) [1, 0, 0, 0]
        0 0 0 (some (0, 1, 0, 1)) =
      surfaceFluxD1 (fun _ _ _ v => v) (fun _ _ => [0, 0, 0, 0]) [1, 0, 0, 0]
        0 0 0 none :=
  surfaceFlux_unocculted_eq_phase_flux _ _ _ 0 0 0 0 1 0 1 le_rfl
    (Or.inl (by rw [show ((1 : ℝ) ^ 2 + 0 ^ 2) = 1 by norm_num, Real.sqrt_one]; norm_num))

theorem rotationDls_structure_witness :
    (rotationDls 2 0).getD 2 zeroMat = dlIterAux 0 3 2 ∧
    dlIterAux 0 3 2 = fun r c =>
      risboSecond 0 3 2 (dlIterAux 0 3 1)
        (risboFirst 0 3 2 (dlIterAux 0 3 1)) r c /
        (((2 * 2) * (2 * 2 - 1) : ℕ) : ℝ) := by
  constructor
  · exact (rotationDls_structure 2 0).2.1 2 (by norm_num)
  · have h := (rotationDls_structure 2 0).2.2 2 (by norm_num)
    simpa using h

/-! ## Helper lemmas for the `Ylm` round trip -/

theorem le_foldl_max_init (x : ℕ) (xs : List ℕ) : x ≤ xs.foldl max x := by
  induction xs generalizing x with
  | nil => exact le_refl x
  | cons y t ih => exact le_trans (le_max_left x y) (ih (max x y))

theorem le_foldl_max_of_mem {y : ℕ} {xs : List ℕ} (x : ℕ) (h : y ∈ xs) :
    y ≤ xs.foldl max x := by
  induction xs generalizing x with
  | nil => cases h
  | cons z t ih =>
    rcases List.mem_cons.mp h with rfl | hmem
    · exact le_trans (le_max_right x y) (le_foldl_max_init _ t)
    · exact ih _ hmem

theorem foldl_max_le {xs : List ℕ} {x b : ℕ} (hx : x ≤ b)
    (h : ∀ y ∈ xs, y ≤ b) : xs.foldl max x ≤ b := by
  induction xs generalizing x with
  | nil => exact hx
  | cons z t ih =>
    exact ih (max_le hx (h z (by simp))) fun y hy => h y (by simp [hy])

theorem maxEll_eq_of (data : List ((ℕ × ℤ) × ℝ)) (L : ℕ)
    (hb : ∀ e ∈ data, e.1.1 ≤ L) (hm : ∃ e ∈ data, e.1.1 = L) :
    maxEll data = some L := by
  unfold maxEll
  cases hd : data.map fun e => e.1.1 with
  | nil =>
    obtain ⟨e, he, _⟩ := hm
    have : e.1.1 ∈ data.map fun e => e.1.1 := List.mem_map_of_mem _ he
    rw [hd] at this
    cases this
  | cons x xs =>
    have hmem : ∀ y ∈ x :: xs, y ≤ L := by
      intro y hy
      rw [← hd] at hy
      obtain ⟨e, he, rfl⟩ := List.mem_map.mp hy
      exact hb e he
    have hLmem : L ∈ x :: xs := by
      obtain ⟨e, he, hL⟩ := hm
      rw [← hd, ← hL]
      exact List.mem_map_of_mem _ he
    have h1 : xs.foldl max x ≤ L :=
      foldl_max_le (hmem x (by simp)) fun y hy => hmem y (by simp [hy])
    have h2 : L ≤ xs.foldl max x := by
      rcases List.mem_cons.mp hLmem with rfl | hLxs
      · exact le_foldl_max_init _ _
      · exact le_foldl_max_of_mem _ hLxs
    exact congrArg some (le_antisymm h1 h2)

theorem fromDenseEntry_checkedIndex (i : ℕ) (c : ℝ) :
    checkedIndex (fromDenseEntry i c).1.1 (fromDenseEntry i c).1.2 =
      some (i : ℤ) := by
  have h1 : Nat.sqrt i * Nat.sqrt i ≤ i := Nat.sqrt_le i
  have h2 : i < Nat.sqrt i * Nat.sqrt i + Nat.sqrt i + (Nat.sqrt i + 1) := by
    have h := Nat.lt_succ_sqrt i
    rw [Nat.succ_mul, Nat.mul_succ] at h
    simpa [Nat.succ_eq_add_one] using h
  have key : (Nat.sqrt i : ℤ) * ((Nat.sqrt i : ℤ) + 1) =
      ((Nat.sqrt i * Nat.sqrt i + Nat.sqrt i : ℕ) : ℤ) := by push_cast; ring
  show checkedIndex (Nat.sqrt i)
      ((i : ℤ) - (Nat.sqrt i : ℤ) * ((Nat.sqrt i : ℤ) + 1)) = some (i : ℤ)
  unfold checkedIndex
  rw [key, if_pos (by omega)]
  congr 1
  omega

theorem tosparsePairs_fromDense (l : List (ℕ × ℝ)) :
    tosparsePairs (l.map fun e => fromDenseEntry e.1 e.2) =
      some (l.map fun e => ((e.1 : ℤ), e.2)) := by
  induction l with
  | nil => rfl
  | cons a t ih =>
    simp only [List.map_cons, tosparsePairs, fromDenseEntry_checkedIndex, ih]
    rfl

theorem filter_enumFrom_lt (v : List ℝ) : ∀ k j : ℕ, j < k →
    ((v.enumFrom k).map fun e => ((e.1 : ℤ), e.2)).filter
      (fun p => decide (p.1 = (j : ℤ))) = [] := by
  induction v with
  | nil => intro _ _ _; rfl
  | cons a t ih =>
    intro k j h
    show (((k, a) :: t.enumFrom (k + 1)).map fun e => ((e.1 : ℤ), e.2)).filter
        (fun p => decide (p.1 = (j : ℤ))) = []
    rw [List.map_cons, List.filter_cons, if_neg (by simp; omega)]
    exact ih (k + 1) j (by omega)

theorem filter_enumFrom_eq (v : List ℝ) : ∀ k j : ℕ, k ≤ j → j < k + v.length →
    ((v.enumFrom k).map fun e => ((e.1 : ℤ), e.2)).filter
      (fun p => decide (p.1 = (j : ℤ))) = [((j : ℤ), v.getD (j - k) 0)] := by
  induction v with
  | nil => intro k j h1 h2; simp at h2; omega
  | cons a t ih =>
    intro k j h1 h2
    show (((k, a) :: t.enumFrom (k + 1)).map fun e => ((e.1 : ℤ), e.2)).filter
        (fun p => decide (p.1 = (j : ℤ))) = _
    rw [List.map_cons, List.filter_cons]
    rcases eq_or_lt_of_le h1 with rfl | hlt
    · rw [if_pos (by simp), filter_enumFrom_lt t (k + 1) k (by omega)]
      simp
    · rw [if_neg (by simp; omega)]
      have hsub : j - k = (j - (k + 1)) + 1 := by omega
      have hrec := ih (k + 1) j (by omega) (by simp at h2 ⊢; omega)
      rw [hrec, hsub]
      simp [List.getD_cons_succ]

theorem map_getD_range (v : List ℝ) :
    (List.range v.length).map (fun j => v.getD j 0) = v := by
  induction v with
  | nil => rfl
  | cons a t ih =>
    rw [List.length_cons, List.range_succ_eq_map, List.map_cons, List.map_map]
    congr 1

/-! ## C8 -/

/-- C8: for every coefficient vector `v` of length `(L+1)²`,
`Ylm.from_dense(v).todense()` returns exactly `v` (same length, same
entries): the canonical index recovery `ℓ = floor(sqrt i)`,
`m = i - ℓ(ℓ+1)` inverts `index(ℓ, m) = ℓ(ℓ+1) + m` slot by slot. -/
theorem todense_of_pairs (y : Ylm) (ps : List (ℤ × ℝ))
    (h : tosparsePairs y.data = some ps) :
    todense y = some (scatterAdd ps (ylmShape y)) := by
  unfold todense
  rw [h]

theorem fromDense_todense_roundTrip (v : List ℝ) (L : ℕ)
    (hv : v.length = (L + 1) ^ 2) :
    (fromDense v).bind todense = some v := by
  have hlen : (v.enumFrom 0).length = v.length := List.enumFrom_length
  -- the degree keys are bounded by L and attain L
  have hb : ∀ e ∈ fromDenseData v, e.1.1 ≤ L := by
    intro e he
    obtain ⟨p, hp, rfl⟩ := List.mem_map.mp he
    have hip : p.1 < 0 + v.length := (List.mem_enumFrom hp).2.1
    have hlt : p.1 < (L + 1) ^ 2 := by rw [← hv]; omega
    have hs : Nat.sqrt p.1 < L + 1 := Nat.sqrt_lt'.mpr hlt
    simpa [fromDenseEntry] using Nat.lt_succ_iff.mp hs
  have hm : ∃ e ∈ fromDenseData v, e.1.1 = L := by
    have hL2 : L ^ 2 < v.length := by
      rw [hv]
      exact Nat.pow_lt_pow_left (Nat.lt_succ_self L) two_ne_zero
    have hL2' : L ^ 2 < (v.enumFrom 0).length := by rw [hlen]; exact hL2
    refine ⟨fromDenseEntry ((v.enumFrom 0).get ⟨L ^ 2, hL2'⟩).1
      ((v.enumFrom 0).get ⟨L ^ 2, hL2'⟩).2, ?_, ?_⟩
    · exact List.mem_map_of_mem _ (List.get_mem _ _ hL2')
    · have hfst : ((v.enumFrom 0).get ⟨L ^ 2, hL2'⟩).1 = 0 + L ^ 2 := by
        rw [List.get_eq_getElem, List.getElem_enumFrom]
      rw [hfst]
      simp [fromDenseEntry, Nat.sqrt_eq']
  have hmax : maxEll (fromDenseData v) = some L := maxEll_eq_of _ L hb hm
  -- the constructor succeeds with ell_max = L
  have hfrom : fromDense v =
      some ⟨fromDenseData v, L, (fromDenseData v).all fun e => e.1.2 == 0⟩ := by
    unfold fromDense mkYlm
    rw [hmax]
  rw [hfrom]
  show todense ⟨fromDenseData v, L, (fromDenseData v).all fun e => e.1.2 == 0⟩ =
    some v
  have hpairs : tosparsePairs (fromDenseData v) =
      some ((v.enumFrom 0).map fun e => ((e.1 : ℤ), e.2)) :=
    tosparsePairs_fromDense (v.enumFrom 0)
  rw [todense_of_pairs _ _ hpairs]
  have hshape : ylmShape ⟨fromDenseData v, L,
      (fromDenseData v).all fun e => e.1.2 == 0⟩ = v.length := by
    show L ^ 2 + 2 * L + 1 = v.length
    rw [hv]; ring
  rw [hshape]
  refine congrArg some ?_
  unfold scatterAdd
  have hpt : ∀ j ∈ List.range v.length,
      ((((v.enumFrom 0).map fun e => ((e.1 : ℤ), e.2)).filter
        (fun p => decide (p.1 = (j : ℤ)))).map fun p => p.2).sum = v.getD j 0 := by
    intro j hj
    rw [filter_enumFrom_eq v 0 j (Nat.zero_le j)
      (by simpa using List.mem_range.mp hj)]
    simp
  rw [List.map_congr_left hpt]
  exact map_getD_range v

theorem fromDense_todense_roundTrip_witness :
    (fromDense [1, 2, 3, 4]).bind todense = some [1, 2, 3, 4] :=
  fromDense_todense_roundTrip [1, 2, 3, 4] 1 (by norm_num)

/-! ## C10 -/

/-- C10: constructing a `Ylm` from an empty coefficient mapping fails
(Python's `max` over zero keys raises `ValueError`), so every successfully
constructed expansion holds at least one stored key. -/
theorem mkYlm_empty_fails :
    mkYlm [] = none ∧ ∀ d : List ((ℕ × ℤ) × ℝ), ∀ y : Ylm,
      mkYlm d = some y → 1 ≤ d.length := by
  refine ⟨rfl, fun d y h => ?_⟩
  cases d with
  | nil => simp [mkYlm, maxEll] at h
  | cons a t => simp

/-! ## C9 -/

theorem mulTerm_swap (c : ℕ → ℕ → ℤ → ℤ → ℕ → ℝ) (hs : w3jColumnSwapSymm c)
    (hp : w3jParityVanishing c) (f g : Ylm) (l3 : ℕ) (m3 : ℤ)
    (l1 : ℕ) (m1 : ℤ) (l2 : ℕ) (m2 : ℤ) :
    mulTerm c f g l3 m3 l1 m1 l2 m2 = mulTerm c g f l3 m3 l2 m2 l1 m1 := by
  unfold mulTerm
  have hguard : (m3 = m1 + m2 ∧ (m1 + m2).natAbs ≤ l3 ∧
      ((l1 : ℤ) - (l2 : ℤ)).natAbs ≤ l3 ∧ l3 ≤ l1 + l2 ∧
      l3 ≤ f.ell_max + g.ell_max) ↔
      (m3 = m2 + m1 ∧ (m2 + m1).natAbs ≤ l3 ∧
      ((l2 : ℤ) - (l1 : ℤ)).natAbs ≤ l3 ∧ l3 ≤ l2 + l1 ∧
      l3 ≤ g.ell_max + f.ell_max) := by omega
  by_cases h : m3 = m1 + m2 ∧ (m1 + m2).natAbs ≤ l3 ∧
      ((l1 : ℤ) - (l2 : ℤ)).natAbs ≤ l3 ∧ l3 ≤ l1 + l2 ∧
      l3 ≤ f.ell_max + g.ell_max
  · rw [if_pos h, if_pos (hguard.mp h)]
    rcases Nat.even_or_odd (l1 + l2 + l3) with he | ho
    · have hcc : c l2 l1 m2 m1 l3 = c l1 l2 m1 m2 l3 := by
        rw [hs l1 l2 m1 m2 l3, he.neg_one_pow, one_mul]
      have hexp : (l2 : ℤ) + (l1 : ℤ) + (l3 : ℤ) + m3 =
          (l1 : ℤ) + (l2 : ℤ) + (l3 : ℤ) + m3 := by ring
      have hsq1 : Real.sqrt ((2 * (l1 : ℝ) + 1) / (4 * Real.pi)) =
          Real.sqrt (2 * (l1 : ℝ) + 1) / Real.sqrt (4 * Real.pi) :=
        Real.sqrt_div (by positivity) _
      have hsq2 : Real.sqrt ((2 * (l2 : ℝ) + 1) / (4 * Real.pi)) =
          Real.sqrt (2 * (l2 : ℝ) + 1) / Real.sqrt (4 * Real.pi) :=
        Real.sqrt_div (by positivity) _
      rw [hcc, hexp, hsq1, hsq2]
      ring
    · have h1 := hp l1 l2 m1 m2 l3 ho
      have h2 := hp l2 l1 m2 m1 l3 (by
        rwa [show l2 + l1 + l3 = l1 + l2 + l3 by ring])
      rw [h1, h2]
      ring
  · rw [if_neg h, if_neg fun hh => h (hguard.mpr hh)]

/-- C9 (amended): the bilinear product of `_mul` is commutative provided
the coupling provider, besides the Wigner 3-j column-swap symmetry, also
vanishes on odd total degree `ℓ1+ℓ2+ℓ3` — the property carried by the
spin-0 factor `(ℓ1 ℓ2 ℓ3; 0 0 0)` of the full scalar product formula,
which `_mul` omits (ylm.py 106, commented out).  With the swap symmetry
alone, `product(f, g)` and `product(g, f)` differ in sign on odd-parity
contributions. -/
theorem mulCoeff_comm_of_parity_vanishing
    (c : ℕ → ℕ → ℤ → ℤ → ℕ → ℝ) (hs : w3jColumnSwapSymm c)
    (hp : w3jParityVanishing c) (f g : Ylm) (l3 : ℕ) (m3 : ℤ) :
    mulCoeff c f g l3 m3 = mulCoeff c g f l3 m3 := by
  unfold mulCoeff
  calc  ∑ l1 ∈ Finset.range (f.ell_max + 1), ∑ m1 ∈ Finset.Icc (-(l1 : ℤ)) (l1 : ℤ),
          ∑ l2 ∈ Finset.range (g.ell_max + 1), ∑ m2 ∈ Finset.Icc (-(l2 : ℤ)) (l2 : ℤ),
            mulTerm c f g l3 m3 l1 m1 l2 m2
      = ∑ l1 ∈ Finset.range (f.ell_max + 1), ∑ m1 ∈ Finset.Icc (-(l1 : ℤ)) (l1 : ℤ),
          ∑ l2 ∈ Finset.range (g.ell_max + 1), ∑ m2 ∈ Finset.Icc (-(l2 : ℤ)) (l2 : ℤ),
            mulTerm c g f l3 m3 l2 m2 l1 m1 :=
        Finset.sum_congr rfl fun l1 _ => Finset.sum_congr rfl fun m1 _ =>
          Finset.sum_congr rfl fun l2 _ => Finset.sum_congr rfl fun m2 _ =>
            mulTerm_swap c hs hp f g l3 m3 l1 m1 l2 m2
    _ = ∑ l1 ∈ Finset.range (f.ell_max + 1), ∑ l2 ∈ Finset.range (g.ell_max + 1),
          ∑ m1 ∈ Finset.Icc (-(l1 : ℤ)) (l1 : ℤ), ∑ m2 ∈ Finset.Icc (-(l2 : ℤ)) (l2 : ℤ),
            mulTerm c g f l3 m3 l2 m2 l1 m1 :=
        Finset.sum_congr rfl fun l1 _ => Finset.sum_comm
    _ = ∑ l2 ∈ Finset.range (g.ell_max + 1), ∑ l1 ∈ Finset.range (f.ell_max + 1),
          ∑ m1 ∈ Finset.Icc (-(l1 : ℤ)) (l1 : ℤ), ∑ m2 ∈ Finset.Icc (-(l2 : ℤ)) (l2 : ℤ),
            mulTerm c g f l3 m3 l2 m2 l1 m1 := Finset.sum_comm
    _ = ∑ l2 ∈ Finset.range (g.ell_max + 1), ∑ l1 ∈ Finset.range (f.ell_max + 1),
          ∑ m2 ∈ Finset.Icc (-(l2 : ℤ)) (l2 : ℤ), ∑ m1 ∈ Finset.Icc (-(l1 : ℤ)) (l1 : ℤ),
            mulTerm c g f l3 m3 l2 m2 l1 m1 :=
        Finset.sum_congr rfl fun l2 _ => Finset.sum_congr rfl fun l1 _ =>
          Finset.sum_comm
    _ = ∑ l2 ∈ Finset.range (g.ell_max + 1), ∑ m2 ∈ Finset.Icc (-(l2 : ℤ)) (l2 : ℤ),
          ∑ l1 ∈ Finset.range (f.ell_max + 1), ∑ m1 ∈ Finset.Icc (-(l1 : ℤ)) (l1 : ℤ),
            mulTerm c g f l3 m3 l2 m2 l1 m1 :=
        Finset.sum_congr rfl fun l2 _ => Finset.sum_comm

theorem w3jTable_swap : w3jColumnSwapSymm w3jTable := by
  intro l1 l2 m1 m2 l3
  unfold w3jTable
  by_cases h1 : l1 = 1 ∧ l2 = 1 ∧ l3 = 1 ∧ m1 = 1 ∧ m2 = -1
  · obtain ⟨rfl, rfl, rfl, rfl, rfl⟩ := h1
    norm_num
  · by_cases h2 : l1 = 1 ∧ l2 = 1 ∧ l3 = 1 ∧ m1 = -1 ∧ m2 = 1
    · obtain ⟨rfl, rfl, rfl, rfl, rfl⟩ := h2
      norm_num
    · rw [if_neg fun hh => h2 ⟨hh.2.1, hh.1, hh.2.2.1, hh.2.2.2.2, hh.2.2.2.1⟩,
        if_neg fun hh => h1 ⟨hh.2.1, hh.1, hh.2.2.1, hh.2.2.2.2, hh.2.2.2.1⟩,
        if_neg h1, if_neg h2]
      ring

theorem w3jEvenTable_swap : w3jColumnSwapSymm w3jEvenTable := by
  intro l1 l2 m1 m2 l3
  unfold w3jEvenTable
  by_cases h : l1 = 1 ∧ l2 = 1 ∧ l3 = 2
  · obtain ⟨rfl, rfl, rfl⟩ := h
    norm_num
  · rw [if_neg fun hh => h ⟨hh.2.1, hh.1, hh.2.2⟩, if_neg h]
    ring

theorem w3jEvenTable_parity : w3jParityVanishing w3jEvenTable := by
  intro l1 l2 m1 m2 l3 ho
  unfold w3jEvenTable
  rw [if_neg]
  intro hh
  obtain ⟨rfl, rfl, rfl⟩ := hh
  exact (by decide : ¬ Odd (1 + 1 + 2)) ho

theorem mulCoeff_PM_eval :
    mulCoeff w3jTable ylmP ylmM 1 0 =
      -(Real.sqrt 3 * (Real.sqrt (3 / (4 * Real.pi)) * Real.sqrt 3)) := by
  have hrange2 : ∀ F : ℕ → ℝ, ∑ l ∈ Finset.range (1 + 1), F l = F 0 + F 1 := by
    intro F
    rw [Finset.sum_range_succ, Finset.sum_range_one]
  have hIcc0 : ∀ F : ℤ → ℝ,
      ∑ m ∈ Finset.Icc (-((0 : ℕ) : ℤ)) ((0 : ℕ) : ℤ), F m = F 0 := by
    intro F
    norm_num [Finset.Icc_self]
  have hIcc1 : ∀ F : ℤ → ℝ,
      ∑ m ∈ Finset.Icc (-((1 : ℕ) : ℤ)) ((1 : ℕ) : ℤ), F m =
        F (-1) + F 0 + F 1 := by
    intro F
    have h : Finset.Icc (-((1 : ℕ) : ℤ)) ((1 : ℕ) : ℤ) =
        insert (-1) (insert 0 {1}) := by decide
    rw [h, Finset.sum_insert (by decide), Finset.sum_insert (by decide),
      Finset.sum_singleton]
    ring
  unfold mulCoeff
  rw [show ylmP.ell_max = 1 from rfl, show ylmM.ell_max = 1 from rfl]
  simp only [hrange2, hIcc0, hIcc1]
  norm_num [mulTerm, w3jTable, show ylmP.ell_max = 1 from rfl,
    show ylmM.ell_max = 1 from rfl,
    show ylmP.coeff 0 0 = 0 from rfl, show ylmP.coeff 1 (-1) = 0 from rfl,
    show ylmP.coeff 1 0 = 0 from rfl, show ylmP.coeff 1 1 = 1 from rfl,
    show ylmM.coeff 0 0 = 0 from rfl, show ylmM.coeff 1 (-1) = 1 from rfl,
    show ylmM.coeff 1 0 = 0 from rfl, show ylmM.coeff 1 1 = 0 from rfl]
  ring

theorem mulCoeff_MP_eval :
    mulCoeff w3jTable ylmM ylmP 1 0 =
      Real.sqrt 3 * (Real.sqrt (3 / (4 * Real.pi)) * Real.sqrt 3) := by
  have hrange2 : ∀ F : ℕ → ℝ, ∑ l ∈ Finset.range (1 + 1), F l = F 0 + F 1 := by
    intro F
    rw [Finset.sum_range_succ, Finset.sum_range_one]
  have hIcc0 : ∀ F : ℤ → ℝ,
      ∑ m ∈ Finset.Icc (-((0 : ℕ) : ℤ)) ((0 : ℕ) : ℤ), F m = F 0 := by
    intro F
    norm_num [Finset.Icc_self]
  have hIcc1 : ∀ F : ℤ → ℝ,
      ∑ m ∈ Finset.Icc (-((1 : ℕ) : ℤ)) ((1 : ℕ) : ℤ), F m =
        F (-1) + F 0 + F 1 := by
    intro F
    have h : Finset.Icc (-((1 : ℕ) : ℤ)) ((1 : ℕ) : ℤ) =
        insert (-1) (insert 0 {1}) := by decide
    rw [h, Finset.sum_insert (by decide), Finset.sum_insert (by decide),
      Finset.sum_singleton]
    ring
  unfold mulCoeff
  rw [show ylmM.ell_max = 1 from rfl, show ylmP.ell_max = 1 from rfl]
  simp only [hrange2, hIcc0, hIcc1]
  norm_num [mulTerm, w3jTable, show ylmP.ell_max = 1 from rfl,
    show ylmM.ell_max = 1 from rfl,
    show ylmP.coeff 0 0 = 0 from rfl, show ylmP.coeff 1 (-1) = 0 from rfl,
    show ylmP.coeff 1 0 = 0 from rfl, show ylmP.coeff 1 1 = 1 from rfl,
    show ylmM.coeff 0 0 = 0 from rfl, show ylmM.coeff 1 (-1) = 1 from rfl,
    show ylmM.coeff 1 0 = 0 from rfl, show ylmM.coeff 1 1 = 0 from rfl]
  ring

/-- C9 counterexample: with a coupling provider satisfying the Wigner 3-j
column-swap symmetry (antisymmetric on the odd-parity triple
`(1, 1, 1)`), the products of the single-coefficient expansions
`f = {(1, 1): 1}` and `g = {(1, -1): 1}` differ at output key `(1, 0)`:
`_mul` omits the spin-0 parity factor, so the odd-parity contribution
flips sign when the factors are swapped. -/
theorem mulCoeff_not_comm_cex :
    w3jColumnSwapSymm w3jTable ∧
    mulCoeff w3jTable ylmP ylmM 1 0 ≠ mulCoeff w3jTable ylmM ylmP 1 0 := by
  refine ⟨w3jTable_swap, ?_⟩
  rw [mulCoeff_PM_eval, mulCoeff_MP_eval]
  have h3 : (0 : ℝ) < Real.sqrt 3 := Real.sqrt_pos.mpr (by norm_num)
  have h4 : (0 : ℝ) < Real.sqrt (3 / (4 * Real.pi)) :=
    Real.sqrt_pos.mpr (by positivity)
  intro h
  nlinarith [mul_pos (mul_pos h3 h4) h3]

theorem mulCoeff_comm_witness :
    mulCoeff w3jEvenTable ylmP ylmM 1 0 =
      mulCoeff w3jEvenTable ylmM ylmP 1 0 :=
  mulCoeff_comm_of_parity_vanishing w3jEvenTable w3jEvenTable_swap
    w3jEvenTable_parity ylmP ylmM 1 0

theorem mkYlm_empty_fails_witness :
    1 ≤ ([(((0 : ℕ), (0 : ℤ)), (1 : ℝ))] : List ((ℕ × ℤ) × ℝ)).length :=
  mkYlm_empty_fails.2 [(((0 : ℕ), (0 : ℤ)), (1 : ℝ))]
    ⟨[(((0 : ℕ), (0 : ℤ)), (1 : ℝ))], 0, true⟩ rfl

end Jaxoplanet
